import Mathlib

/-!
Verification of the factor-analysis core of the `tea-data-loader` repository.

The Python source (src/fac_analyse and src/pyloader) is shallowly embedded
here.  Columns of a per-symbol frame are `List (Option ℚ)` (nullable values)
or `List ℚ` (non-null values); frame-level machinery that the claims need
(label construction, correlation post-processing, quantile bucketing, the
`Summary` result store, `agg_dfs` weighted aggregation, and the
`group_analyse` best-horizon selection) is modelled function by function
from the corresponding source lines.
-/

namespace TeaDataLoader

/-! ## Label construction (src/fac_analyse/analysis.py, Analysis.__init__)

The source expression for each horizon `n ≠ 1` is

  ((1 + col(base)).log().rolling_sum(n, min_periods=n//2).exp() - 1)
      .shift(-n+1).fill_null(0)

`rolling_sum` at output row `i` sums the non-null values of the window of
rows `max(0, i-n+1) .. i` and yields null when fewer than `min_periods`
values are non-null.  Since `exp (Σ log (1 + xᵢ)) = Π (1 + xᵢ)` exactly,
the window value `exp(Σ log(1+xᵢ)) - 1` is represented exactly over ℚ as
`Π (1 + xᵢ) - 1` (the compounded simple return of the window).
-/

/-- Rolling window of the source's `rolling_sum(n, ...)` at output row `i`:
the rows `max(0, i-n+1) .. i`, written with truncated subtraction. -/
def windowAt (n : ℕ) (xs : List (Option ℚ)) (i : ℕ) : List (Option ℚ) :=
  (xs.take (i + 1)).drop (i + 1 - n)

/-- The non-null values of a window (polars rolling aggregations skip
nulls; `min_periods` counts non-null values). -/
def validVals (w : List (Option ℚ)) : List ℚ :=
  w.filterMap id

/-- Exact value of `exp(Σ log(1+xᵢ)) - 1` over a window's valid values:
the compounded simple return `Π (1 + xᵢ) - 1`. -/
def compound (ys : List ℚ) : ℚ :=
  (ys.map (fun x => 1 + x)).prod - 1

/-- `(1 + col).log().rolling_sum(n, min_periods=minp).exp() - 1` as a
column-to-column map: at row `i`, the compounded return of the window when
at least `minp` of its values are non-null, otherwise null. -/
def rollingCompound (n minp : ℕ) (xs : List (Option ℚ)) : List (Option ℚ) :=
  (List.range xs.length).map (fun i =>
    let v := validVals (windowAt n xs i)
    if minp ≤ v.length then some (compound v) else none)

/-- polars `shift(-k)`: row `i` of the output is row `i + k` of the input,
null past the end. -/
def shiftNeg (k : ℕ) (xs : List (Option ℚ)) : List (Option ℚ) :=
  (List.range xs.length).map (fun i =>
    if i + k < xs.length then xs.getD (i + k) none else none)

/-- polars `fill_null(c)`. -/
def fillNull (c : ℚ) (xs : List (Option ℚ)) : List ℚ :=
  xs.map (fun v => v.getD c)

/-- The derived column `label_n` for `n ≠ 1`, exactly as built in
`Analysis.__init__` (analysis.py line 40): note `min_periods = n // 2`,
i.e. floor division. -/
def labelCol (n : ℕ) (base : List (Option ℚ)) : List ℚ :=
  fillNull 0 (shiftNeg (n - 1) (rollingCompound n (n / 2) base))

/-- The spec's variant of the same column, with `min_periods = ⌈n/2⌉`
(written `(n+1)/2` over ℕ).  Kept side by side with `labelCol` for the
refinement comparison of claim C1; it is NOT the source's definition. -/
def labelColSpec (n : ℕ) (base : List (Option ℚ)) : List ℚ :=
  fillNull 0 (shiftNeg (n - 1) (rollingCompound n ((n + 1) / 2) base))

/-- The full label-column family attached by `Analysis.__init__`:
`label_1` is the base column verbatim (named expression
`label_1=self.base_label`), every configured `n ≠ 1` gets the transformed
column, and other names are absent. -/
def labelColumn (periods : List ℕ) (base : List (Option ℚ)) (n : ℕ) :
    Option (List (Option ℚ)) :=
  if n = 1 then some base
  else if n ∈ periods then some ((labelCol n base).map some) else none

/-! ## `stable_corr` (src/fac_analyse/utils.py, lines 5-6)

`pl.corr(x, y, method).clip(-0.2, 0.2).fill_nan(None)`.  The engine's
correlation result for one frame is a single nullable float that may be
NaN (degenerate samples); we embed that scalar domain directly.
-/

/-- A nullable float scalar as the engine hands it back: null, NaN, or a
numeric value (embedded as ℚ). -/
inductive FloatVal where
  | null : FloatVal
  | nan : FloatVal
  | val (q : ℚ) : FloatVal
deriving DecidableEq

/-- polars `clip(lo, hi)`: numeric values are clamped; NaN and null pass
through unchanged. -/
def clipF (lo hi : ℚ) : FloatVal → FloatVal
  | .null => .null
  | .nan => .nan
  | .val q => .val (min (max q lo) hi)

/-- polars `fill_nan(None)`: NaN becomes null, everything else unchanged. -/
def fillNanNone : FloatVal → FloatVal
  | .nan => .null
  | v => v

/-- `stable_corr` post-processing applied to the raw correlation scalar
`c`: `clip(-0.2, 0.2).fill_nan(None)`. -/
def stable_corr_post (c : FloatVal) : FloatVal :=
  fillNanNone (clipF (-(1/5)) (1/5) c)

/-! ## Quantile bucketing (src/fac_analyse/utils.py, get_ts_group)

Both grouped-return call sites use the default `drop_peak=False`, so the
modelled path takes `fac_min = fac.min()`, `fac_max = fac.max()`, builds
`bins = linspace(fac_min - 1e-10, fac_max + 1e-10, group + 1)` and cuts
with right-closed intervals (`right=True, add_bounds=False`).
-/

/-- `pq.linspace(a, b, n)`: `n` equally spaced points from `a` to `b`
inclusive.  For `n = 1` the ℚ convention `x / 0 = 0` yields `[a]`. -/
def linspaceQ (a b : ℚ) (n : ℕ) : List ℚ :=
  (List.range n).map (fun i : ℕ => a + (b - a) * (i : ℚ) / ((n : ℚ) - 1))

/-- The ε guard of `get_ts_group`. -/
def tsEps : ℚ := 1 / 10000000000

/-- Column minimum (`fac.min()`) of a non-null column; 0 on the empty
column (the engine would return null there, a case no claim touches). -/
def facMinQ (xs : List ℚ) : ℚ :=
  match xs with
  | [] => 0
  | h :: t => t.foldl min h

/-- Column maximum (`fac.max()`). -/
def facMaxQ (xs : List ℚ) : ℚ :=
  match xs with
  | [] => 0
  | h :: t => t.foldl max h

/-- The bin edges of `get_ts_group`:
`linspace(fac_min - eps, fac_max + eps, group + 1)`. -/
def tsBins (xs : List ℚ) (group : ℕ) : List ℚ :=
  linspaceQ (facMinQ xs - tsEps) (facMaxQ xs + tsEps) (group + 1)

/-- The bin labels of `get_ts_group`: fixed sets for `group = 20` and
`group = 10`, otherwise `pq.linspace(-1, 1, group)`. -/
def groupLabels (group : ℕ) : List ℚ :=
  if group = 20 then
    [-1, -(9/10), -(8/10), -(7/10), -(6/10), -(5/10), -(4/10), -(3/10),
     -(2/10), -(1/10), 1/10, 2/10, 3/10, 4/10, 5/10, 6/10, 7/10, 8/10,
     9/10, 1]
  else if group = 10 then
    [-1, -(8/10), -(6/10), -(4/10), -(2/10), 2/10, 4/10, 6/10, 8/10, 1]
  else linspaceQ (-1) 1 group

/-- `qt.cut(bins, right=True, add_bounds=False)` bin search: the index of
the first (hence, for strictly increasing edges, the unique) interval
`(eᵢ, eᵢ₊₁]` containing `v`; null when no interval contains it. -/
def cutIdx (v : ℚ) : List ℚ → Option ℕ
  | [] => none
  | [_] => none
  | e₁ :: e₂ :: rest =>
    if e₁ < v ∧ v ≤ e₂ then some 0
    else (cutIdx v (e₂ :: rest)).map (· + 1)

/-- `qt.cut` with labels: the label of the bin containing `v`. -/
def qtCut (v : ℚ) (edges : List ℚ) (labels : List ℚ) : Option ℚ :=
  (cutIdx v edges).bind (fun i => labels.get? i)

/-- `get_ts_group(fac, group)` on the default `drop_peak=False` path,
applied to a materialized column. -/
def get_ts_group (xs : List ℚ) (group : ℕ) : List (Option ℚ) :=
  xs.map (fun v => qtCut v (tsBins xs group) (groupLabels group))

/-! ## The Summary result store (src/fac_analyse/summary.py)

Python attribute access on a `Summary` first consults the instance
dictionary (`self.facs`, `self.labels` and every stored result), and only
for a missing name falls back to `Summary.__getattr__`, which resolves
the six derived-metric names, then factor names (as `FacSummary`
handles), and returns `None` for everything else.  The instance
dictionary is an association list searched front to back (a later
assignment is prepended, shadowing the older entry).
-/

/-- State of one `Summary` object: the configured factor and label names
plus the instance dictionary, with stored values of type `V`. -/
structure SummaryState (V : Type) where
  facs : List String
  labels : List String
  attrs : List (String × V)

/-- First-match lookup in the instance dictionary. -/
def summaryLookup {V : Type} (attrs : List (String × V)) (name : String) :
    Option V :=
  (attrs.find? (fun p => p.1 == name)).map (·.2)

/-- The derived-metric names handled by `Summary.__getattr__`. -/
def metricNames : List String :=
  ["ic", "ic_std", "ir", "ic_skew", "ic_kurt", "ic_overall"]

/-- The stored result a derived metric reads: `ic_overall` reads
`_ic_overall`, the five others read `ts_ic` (`ir` via `ic / ic_std`). -/
def metricDep (name : String) : String :=
  if name = "ic_overall" then "_ic_overall" else "ts_ic"

/-- Result of one attribute access. -/
inductive GetattrResult (V : Type) where
  | stored (v : V) : GetattrResult V
  | metric (name : String) : GetattrResult V
  | facSummary (name : String) : GetattrResult V
  | pyNone : GetattrResult V
deriving DecidableEq

/-- Full Python attribute access on a `Summary`: instance dictionary
first, then the `__getattr__` fallback of summary.py lines 18-36.  A
derived metric whose stored dependency is absent fails inside
`Summary.concat` (iterating `None` raises `TypeError`); a metric whose
dependency is present is returned opaquely as `.metric`.  The remaining
fallback branches (`FacSummary` handle, `None`) contain no raising code. -/
def summaryGetattr {V : Type} (s : SummaryState V) (name : String) :
    Except String (GetattrResult V) :=
  match summaryLookup s.attrs name with
  | some v => .ok (.stored v)
  | none =>
    if name ∈ metricNames then
      match summaryLookup s.attrs (metricDep name) with
      | some _ => .ok (.metric name)
      | none => .error "TypeError"
    else if name ∈ s.facs then .ok (.facSummary name)
    else .ok (.pyNone)

/-- A fresh `Summary(facs, labels)`: `__init__` stores exactly `facs` and
`labels` in the instance dictionary. -/
inductive SVal where
  | strs (xs : List String) : SVal
  | frames (fs : List (List ℚ)) : SVal
deriving DecidableEq

def mkSummary (facs labels : List String) : SummaryState SVal :=
  ⟨facs, labels, [("facs", .strs facs), ("labels", .strs labels)]⟩

/-- Storage effect of `Analysis.ts_ic` (analysis.py lines 67-88): the
per-symbol aligned frames `symVal` are assigned to `symbol_ts_ic` only
when `keep_symbol_ic` is true, then the cross-symbol series `tsVal` is
assigned to `ts_ic`.  Assignments prepend (shadow) in the instance
dictionary. -/
def tsIcRun {V : Type} (keepSymbolIc : Bool) (symVal tsVal : V)
    (s : SummaryState V) : SummaryState V :=
  { s with
    attrs :=
      ("ts_ic", tsVal) ::
        ((if keepSymbolIc then [("symbol_ts_ic", symVal)] else []) ++ s.attrs) }

/-! ## Factor-indexed result lookup
(src/fac_analyse/summary.py, Summary._fac_attr_single, lines 45-67)

The claims concern the list-valued stored results, so `values` is a list
of frames (a stored frame is never Python `None`, hence the `df is None`
check in the source fires exactly when the zip search found nothing). -/

/-- A `fac` key as the source type-dispatches on it: a Python int, a
string, or any other type. -/
inductive PyKey where
  | int (i : ℤ) : PyKey
  | str (s : String) : PyKey
  | other : PyKey
deriving DecidableEq

/-- The error conditions `_fac_attr_single` can raise: `ValueError`
("fac ... not in result", the FactorNotFound condition), `TypeError`
("fac should be str or int", the InvalidKey condition), and the
`IndexError` of a plain out-of-range list index. -/
inductive FacAttrErr where
  | valueError : FacAttrErr
  | typeError : FacAttrErr
  | indexError : FacAttrErr
deriving DecidableEq

/-- Python list indexing `values[i]` with negative-index wraparound. -/
def pyListGet {α : Type} (values : List α) (i : ℤ) : Option α :=
  if 0 ≤ i then values.get? i.toNat
  else if (-i).toNat ≤ values.length then
    values.get? (values.length - (-i).toNat)
  else none

/-- `Summary._fac_attr_single(attr, fac)` on a list-valued stored result:
a string key is searched through `zip(self.facs, values)` (first match
wins, `ValueError` when absent); an int key indexes `values` directly;
any other key type raises `TypeError`. -/
def fac_attr_single {α : Type} (facs : List String) (values : List α)
    (key : PyKey) : Except FacAttrErr α :=
  match key with
  | .str s =>
    match (List.zip facs values).find? (fun p => p.1 == s) with
    | some p => .ok p.2
    | none => .error .valueError
  | .int i =>
    match pyListGet values i with
    | some v => .ok v
    | none => .error .indexError
  | .other => .error .typeError

/-! ## Overall IC aggregation (src/fac_analyse/analysis.py, ic_overall)

`ic_overall` stores `summary.symbol_ic = [ic.drop('count') ...]` and
`summary._ic_overall = [ic.agg_dfs(weight='count') ...]`.  One per-factor
IC frame holds one row per symbol: the per-label IC values plus the valid
row count. -/

/-- One symbol's row of an `ic_overall` result frame: the IC value per
label and the `count` column. -/
structure ICRow where
  ics : List ℚ
  count : ℕ
deriving DecidableEq

/-- Modelled from the spec: `agg_dfs(weight='count')` lives in the Rust
loader core, which is not under src/; the spec defines the cross-symbol
aggregate as the count-weighted mean per label.  It is written here as a
streaming fold (weighted sum and total weight accumulated row by row,
divided at the end), the closed form being claim C5's statement. -/
def agg_dfs_weighted (rows : List ICRow) (j : ℕ) : ℚ :=
  (rows.foldl (fun acc f => acc + (f.count : ℚ) * f.ics.getD j 0) 0) /
    (rows.foldl (fun acc f => acc + (f.count : ℚ)) 0)

/-- The aggregated frame over `L` labels. -/
def agg_dfs_frame (rows : List ICRow) (L : ℕ) : List ℚ :=
  (List.range L).map (agg_dfs_weighted rows)

/-- Store payloads of `ic_overall`: the per-symbol frames (count column
dropped) and the cross-symbol aggregates, one entry per factor. -/
inductive ICStoreVal where
  | perSymbol (x : List (List (List ℚ))) : ICStoreVal
  | overall (x : List (List ℚ)) : ICStoreVal
deriving DecidableEq

/-- Storage effect of `Analysis.ic_overall` (analysis.py lines 55-65):
`symbol_ic` receives the per-factor lists of per-symbol IC rows with the
count column dropped, `_ic_overall` the per-factor aggregated frames. -/
def ic_overall_run (perFac : List (List ICRow)) (L : ℕ)
    (s : SummaryState ICStoreVal) : SummaryState ICStoreVal :=
  { s with
    attrs :=
      ("_ic_overall", .overall (perFac.map (fun rows => agg_dfs_frame rows L))) ::
        ("symbol_ic", .perSymbol (perFac.map (fun rows => rows.map (·.ics)))) ::
          s.attrs }

/-! ## Best-horizon selection (src/fac_analyse/analysis.py, group_analyse)

`group_analyse` takes the per-group mean-return table of one factor
(rows = quantile groups in ascending group order, columns = the label
horizons), divides every column by its horizon, forms
`iloc[-1] - iloc[0] - (c_rate / periods) * 4` and returns the horizon at
`idxmax`, pandas `idxmax` returning the first occurrence of the maximum. -/

/-- pandas `Series.idxmax` on positions: index of the first occurrence of
the maximum.  `go` carries (rest of the list, next index, best index so
far, best value so far); only a strictly larger value moves the best. -/
def idxmaxGo : List ℚ → ℕ → ℕ → ℚ → ℕ
  | [], _, bi, _ => bi
  | x :: rest, i, bi, bv =>
    if bv < x then idxmaxGo rest (i + 1) i x else idxmaxGo rest (i + 1) bi bv

def idxmaxFirst (xs : List ℚ) : Option ℕ :=
  match xs with
  | [] => none
  | h :: t => some (idxmaxGo t 1 0 h)

/-- The net-spread series of `group_analyse` (analysis.py lines 200-206):
column `j` is `top/n_j - bottom/n_j - 4 * (c_rate / n_j)` where `top` and
`bottom` are the last and first rows of the grouped-return table. -/
def netSpreads (table : List (List ℚ)) (periods : List ℕ) (cRate : ℚ) :
    List ℚ :=
  let top := (table.getLast?).getD []
  let bottom := (table.head?).getD []
  (List.range periods.length).map (fun j =>
    top.getD j 0 / (periods.getD j 1 : ℚ) -
      bottom.getD j 0 / (periods.getD j 1 : ℚ) -
        cRate / (periods.getD j 1 : ℚ) * 4)

/-- `group_analyse`'s selected best horizon: the period at the
first-maximal index of the net-spread series. -/
def group_analyse_best (table : List (List ℚ)) (periods : List ℕ)
    (cRate : ℚ) : Option ℕ :=
  (idxmaxFirst (netSpreads table periods cRate)).map
    (fun i => periods.getD i 0)

/-! ## The grouping handle returned by `DataLoader.group_by_time`
(src/pyloader/python/loader/py_loader.py lines 407-456,
src/pyloader/python/loader/group_by.py)

`group_by_time` and `group_by` are annotated `-> DataLoaderGroupBy` and
documented to return the grouping handle, but their bodies wrap the
native group-by object in `DataLoader(...)`.  We model the Python class
of the returned wrapper and class-level attribute lookup: the method
names below are exactly the attributes defined in the two class bodies. -/

/-- The native (Rust) object held by a wrapper. -/
inductive RsObj where
  | rsLoader : RsObj
  | rsGroupBy : RsObj
deriving DecidableEq

/-- A Python-side wrapper object, tagged with its class. -/
inductive PyWrapper where
  | dataLoader (inner : RsObj) : PyWrapper
  | dataLoaderGroupBy (inner : RsObj) : PyWrapper
deriving DecidableEq

/-- The attributes defined in the `DataLoader` class body
(py_loader.py). -/
def dataLoaderAttrs : List String :=
  ["dfs", "symbols", "type", "start", "end", "freq", "schema", "columns",
   "len", "is_empty", "is_eager", "is_lazy", "find_index", "with_type",
   "with_symbols", "with_start", "with_end", "with_freq", "with_dfs",
   "iter_dfs", "collect", "lazy", "select", "with_columns", "drop",
   "filter", "align", "concat", "save", "load", "apply", "join",
   "group_by_time", "group_by", "group_by_dynamic", "kline",
   "calc_tick_future_ret"]

/-- The attributes defined in the `DataLoaderGroupBy` class body
(group_by.py). -/
def dataLoaderGroupByAttrs : List String :=
  ["dl", "last_time", "time", "agg"]

/-- Class-level attribute lookup on a wrapper (`DataLoader` defines no
`__getattr__`, so a missing name raises `AttributeError`). -/
def pyHasAttr : PyWrapper → String → Bool
  | .dataLoader _, name => name ∈ dataLoaderAttrs
  | .dataLoaderGroupBy _, name => name ∈ dataLoaderGroupByAttrs

/-- `DataLoader.group_by_time(...)` as written (py_loader.py line 431):
`return DataLoader(self.dl.group_by_time(...))` — the native group-by
object is wrapped in `DataLoader`, not in `DataLoaderGroupBy`. -/
def dataLoader_group_by_time (_dl : PyWrapper) : PyWrapper :=
  .dataLoader .rsGroupBy

/-- `DataLoader.group_by(...)` as written (py_loader.py line 456):
likewise `return DataLoader(self.dl.group_by(by, maintain_order))`. -/
def dataLoader_group_by (_dl : PyWrapper) : PyWrapper :=
  .dataLoader .rsGroupBy

/-- Whether a wrapper is a `DataLoaderGroupBy` (the TimeGroupedView of
the spec). -/
def isGroupByView : PyWrapper → Bool
  | .dataLoaderGroupBy _ => true
  | .dataLoader _ => false

/-! ## Helper lemmas -/

/-- Indexing a `(List.range n).map f` column. -/
theorem getD_range_map {α : Type} (f : ℕ → α) (d : α) (n j : ℕ) (hj : j < n) :
    ((List.range n).map f).getD j d = f j := by
  rw [List.getD_eq_getElem?_getD, List.getElem?_map, List.getElem?_range hj]
  rfl

theorem length_range_map {α : Type} (f : ℕ → α) (n : ℕ) :
    ((List.range n).map f).length = n := by
  rw [List.length_map, List.length_range]

/-! ## Claim theorems -/

/-- Claim C3: every value produced by the IC post-processing
`stable_corr` (corr, then `clip(-0.2, 0.2)`, then `fill_nan(None)`) is
either null or a numeric value within [-0.2, 0.2], whatever the raw
correlation scalar was; a NaN correlation result is converted to null. -/
theorem c3_stable_corr_range :
    (∀ c : FloatVal, stable_corr_post c = .null ∨
      ∃ q : ℚ, stable_corr_post c = .val q ∧ -(1/5) ≤ q ∧ q ≤ 1/5) ∧
    stable_corr_post .nan = .null := by
  constructor
  · intro c
    cases c with
    | null => left; rfl
    | nan => left; rfl
    | val q =>
      right
      refine ⟨min (max q (-(1/5))) (1/5), rfl, ?_, min_le_right _ _⟩
      exact le_min (le_max_right _ _) (by norm_num)
  · rfl

/-- Claim C9: `label_1` is the base label column verbatim (the named
expression `label_1=self.base_label` in `Analysis.__init__`); horizon 1
is never transformed, for every configured horizon list and every row. -/
theorem c9_label_1_identity (periods : List ℕ) (base : List (Option ℚ)) :
    labelColumn periods base 1 = some base ∧
    ∀ t : ℕ, ((labelColumn periods base 1).getD []).getD t none =
      base.getD t none := by
  refine ⟨rfl, fun t => rfl⟩

/-- Claim C2 (code evaluation): as written, `DataLoader.group_by_time`
and `DataLoader.group_by` wrap the native group-by object in `DataLoader`
(py_loader.py lines 431 and 456), so the returned object is not a
`DataLoaderGroupBy` and has no `agg` attribute — calling `.agg` on it
raises `AttributeError` — while the `DataLoaderGroupBy` class the
annotations promise does carry `agg`. -/
theorem c2_group_by_returns_wrong_class (dl : PyWrapper) :
    isGroupByView (dataLoader_group_by_time dl) = false ∧
    pyHasAttr (dataLoader_group_by_time dl) "agg" = false ∧
    isGroupByView (dataLoader_group_by dl) = false ∧
    pyHasAttr (dataLoader_group_by dl) "agg" = false ∧
    pyHasAttr (.dataLoaderGroupBy .rsGroupBy) "agg" = true := by
  exact ⟨rfl, rfl, rfl, rfl, rfl⟩

/-- Claim C8 counterexample: on a fresh `Summary(["momentum"],
["label_1"])`, the attribute name `facs` is neither a known derived
metric nor a configured factor name, yet attribute access returns the
stored factor list, not None — instance attributes shadow the permissive
`__getattr__` fallback. -/
theorem c8_cex :
    "facs" ∉ metricNames ∧
    "facs" ∉ (mkSummary ["momentum"] ["label_1"]).facs ∧
    summaryGetattr (mkSummary ["momentum"] ["label_1"]) "facs" =
      .ok (.stored (.strs ["momentum"])) ∧
    summaryGetattr (mkSummary ["momentum"] ["label_1"]) "facs" ≠
      .ok .pyNone := by
  refine ⟨by decide, by decide, rfl, ?_⟩
  intro h
  simp [summaryGetattr, summaryLookup, mkSummary] at h

/-- Shared helper: the `__getattr__` fallback returns None for a name
that is absent from the instance dictionary, not a derived metric and not
a factor name. -/
theorem getattr_fallback_none {V : Type} (s : SummaryState V) (name : String)
    (h1 : summaryLookup s.attrs name = none)
    (h2 : name ∉ metricNames) (h3 : name ∉ s.facs) :
    summaryGetattr s name = .ok .pyNone := by
  unfold summaryGetattr
  rw [h1]
  simp [h2, h3]

/-- Claim C8 (amended): for every attribute name that is not a known
derived metric, not a configured factor name, and not an attribute
actually present in the instance dictionary, attribute access on a
`Summary` returns None and never raises. -/
theorem c8_unknown_attr_none {V : Type} (s : SummaryState V) (name : String)
    (h1 : summaryLookup s.attrs name = none)
    (h2 : name ∉ metricNames) (h3 : name ∉ s.facs) :
    summaryGetattr s name = .ok .pyNone :=
  getattr_fallback_none s name h1 h2 h3

theorem c8_unknown_attr_none_witness :
    summaryGetattr (mkSummary ["momentum"] ["label_1"]) "alpha" =
      .ok .pyNone :=
  c8_unknown_attr_none (mkSummary ["momentum"] ["label_1"]) "alpha"
    (by decide) (by decide) (by decide)

/-- Claim C10: a `ts_ic` call with the default `keep_symbol_ic=False`
stores exactly the cross-symbol `ts_ic` series and nothing else, so
`symbol_ts_ic` subsequently resolves to None through the permissive
lookup; with `keep_symbol_ic=True` the per-symbol frames are stored under
`symbol_ts_ic`. -/
theorem c10_ts_ic_storage {V : Type} (s : SummaryState V) (v1 v2 : V)
    (h1 : summaryLookup s.attrs "symbol_ts_ic" = none)
    (h2 : "symbol_ts_ic" ∉ s.facs) :
    summaryGetattr (tsIcRun false v1 v2 s) "symbol_ts_ic" = .ok .pyNone ∧
    (tsIcRun false v1 v2 s).attrs = ("ts_ic", v2) :: s.attrs ∧
    summaryLookup (tsIcRun false v1 v2 s).attrs "ts_ic" = some v2 ∧
    summaryLookup (tsIcRun true v1 v2 s).attrs "symbol_ts_ic" = some v1 := by
  refine ⟨?_, rfl, ?_, ?_⟩
  · apply getattr_fallback_none _ _ _ (by decide) h2
    simpa [tsIcRun, summaryLookup, List.find?] using h1
  · simp [tsIcRun, summaryLookup, List.find?]
  · simp [tsIcRun, summaryLookup, List.find?]

theorem c10_ts_ic_storage_witness :
    summaryGetattr
      (tsIcRun false (SVal.frames []) (SVal.frames [])
        (mkSummary ["momentum"] ["label_1"])) "symbol_ts_ic" =
      .ok .pyNone :=
  (c10_ts_ic_storage (mkSummary ["momentum"] ["label_1"])
    (SVal.frames []) (SVal.frames []) (by decide) (by decide)).1

/-- Shared helper: an additive fold is the initial value plus the sum of
the mapped list. -/
theorem foldl_add_map {β : Type} (g : β → ℚ) (l : List β) (init : ℚ) :
    l.foldl (fun a x => a + g x) init = init + (l.map g).sum := by
  induction l generalizing init with
  | nil => simp
  | cons h t ih => simp only [List.foldl_cons, List.map_cons, List.sum_cons, ih]; ring

/-- Claim C5: `ic_overall` stores the cross-symbol aggregate under
`_ic_overall` and the per-symbol IC frames (count column dropped) under
the distinct key `symbol_ic`; for each factor and each label `j` the
aggregate value equals the row-count-weighted mean of the per-symbol IC
values for that label. -/
theorem c5_ic_overall_weighted (perFac : List (List ICRow)) (L : ℕ)
    (s : SummaryState ICStoreVal) :
    summaryLookup (ic_overall_run perFac L s).attrs "_ic_overall" =
      some (.overall (perFac.map (fun rows => agg_dfs_frame rows L))) ∧
    summaryLookup (ic_overall_run perFac L s).attrs "symbol_ic" =
      some (.perSymbol (perFac.map (fun rows => rows.map (·.ics)))) ∧
    "_ic_overall" ≠ "symbol_ic" ∧
    ∀ (rows : List ICRow) (j : ℕ),
      agg_dfs_weighted rows j =
        (rows.map (fun f => (f.count : ℚ) * f.ics.getD j 0)).sum /
          (rows.map (fun f => (f.count : ℚ))).sum := by
  refine ⟨?_, ?_, by decide, ?_⟩
  · simp [ic_overall_run, summaryLookup, List.find?]
  · simp [ic_overall_run, summaryLookup, List.find?]
  · intro rows j
    unfold agg_dfs_weighted
    rw [foldl_add_map, foldl_add_map, zero_add, zero_add]

/-- Shared helper: searching `zip facs values` for a name finds nothing
exactly when the name is absent from `facs` (lengths being equal). -/
theorem zip_find_none {α : Type} (s : String) :
    ∀ (facs : List String) (values : List α),
    facs.length = values.length →
    (((List.zip facs values).find? (fun p => p.1 == s)) = none ↔ s ∉ facs) := by
  intro facs
  induction facs with
  | nil => intro values h; simp
  | cons f ft ih =>
    intro values h
    cases values with
    | nil => simp at h
    | cons v vt =>
      simp only [List.zip_cons_cons, List.find?_cons]
      by_cases hf : f = s
      · subst hf
        simp
      · have hb : (f == s) = false := by
          simpa using hf
        simp only [hb]
        rw [ih vt (by simpa using h)]
        simp [hf, Ne.symm]

/-- Shared helper: searching `zip facs values` for a present name returns
the value at the name's first index. -/
theorem zip_find_mem {α : Type} (s : String) :
    ∀ (facs : List String) (values : List α),
    facs.length = values.length → s ∈ facs →
    ∃ hi : List.indexOf s facs < values.length,
      ((List.zip facs values).find? (fun p => p.1 == s)) =
        some (s, values.get ⟨List.indexOf s facs, hi⟩) := by
  intro facs
  induction facs with
  | nil => intro values h hs; simp at hs
  | cons f ft ih =>
    intro values h hs
    cases values with
    | nil => simp at h
    | cons v vt =>
      simp only [List.zip_cons_cons, List.find?_cons]
      by_cases hf : f = s
      · subst hf
        refine ⟨by simp [List.indexOf_cons_self], ?_⟩
        simp [List.indexOf_cons_self]
      · have hb : (f == s) = false := by simpa using hf
        have hs2 : s ∈ ft := by
          rcases List.mem_cons.mp hs with h1 | h2
          · exact absurd h1.symm hf
          · exact h2
        obtain ⟨hi, hfind⟩ := ih vt (by simpa using h) hs2
        have hidx : List.indexOf s (f :: ft) = List.indexOf s ft + 1 := by
          simp [List.indexOf_cons, hb]
        refine ⟨by simp [hidx]; omega, ?_⟩
        simp only [hb, cond_false, hidx, hfind]
        rfl

/-- Claim C7: on a list-valued stored result aligned with the factor
list, `_fac_attr_single` raises the FactorNotFound condition
(`ValueError`) exactly when a string key is absent from the factor list,
raises the InvalidKey condition (`TypeError`) exactly when the key is
neither an int nor a string, and for a present factor name returns the
stored frame at the factor's (first) position. -/
theorem c7_fac_attr_single {α : Type} (facs : List String) (values : List α)
    (h : facs.length = values.length) :
    (∀ s, fac_attr_single facs values (.str s) = .error .valueError ↔
      s ∉ facs) ∧
    (∀ k, fac_attr_single facs values k = .error .typeError ↔ k = .other) ∧
    (∀ s, s ∈ facs → ∃ hi : List.indexOf s facs < values.length,
      fac_attr_single facs values (.str s) =
        .ok (values.get ⟨List.indexOf s facs, hi⟩)) := by
  refine ⟨?_, ?_, ?_⟩
  · intro s
    unfold fac_attr_single
    rw [← zip_find_none s facs values h]
    cases hfind : (List.zip facs values).find? (fun p => p.1 == s) with
    | none => simp [hfind]
    | some p => simp [hfind]
  · intro k
    cases k with
    | str s =>
      unfold fac_attr_single
      cases hfind : (List.zip facs values).find? (fun p => p.1 == s) with
      | none => simp [hfind]
      | some p => simp [hfind]
    | int i =>
      unfold fac_attr_single
      cases hget : pyListGet values i with
      | none => simp [hget]
      | some v => simp [hget]
    | other => simp [fac_attr_single]
  · intro s hs
    obtain ⟨hi, hfind⟩ := zip_find_mem s facs values h hs
    exact ⟨hi, by simp [fac_attr_single, hfind]⟩

theorem c7_fac_attr_single_witness :
    fac_attr_single ["a", "b"] [(10 : ℕ), 20] (.str "c") =
      .error .valueError ∧
    fac_attr_single ["a", "b"] [(10 : ℕ), 20] .other = .error .typeError ∧
    fac_attr_single ["a", "b"] [(10 : ℕ), 20] (.str "b") = .ok 20 := by
  have h := c7_fac_attr_single ["a", "b"] [(10 : ℕ), 20] rfl
  refine ⟨(h.1 "c").mpr (by decide), (h.2.1 .other).mpr rfl, ?_⟩
  obtain ⟨hi, he⟩ := h.2.2 "b" (by decide)
  simpa using he

/-- Shared helper: the accumulator-passing scan of `idxmaxFirst` either
keeps the incoming best index (when nothing in the remaining list beats
the incoming best value) or lands on the first strict improvement that is
itself maximal among the remaining elements. -/
theorem idxmaxGo_spec :
    ∀ (rest : List ℚ) (k bi : ℕ) (bv : ℚ),
    (idxmaxGo rest k bi bv = bi ∧
      ∀ j, j < rest.length → rest.getD j 0 ≤ bv) ∨
    (∃ j, j < rest.length ∧ idxmaxGo rest k bi bv = k + j ∧
      bv < rest.getD j 0 ∧
      (∀ j2, j2 < rest.length → rest.getD j2 0 ≤ rest.getD j 0) ∧
      (∀ j2, j2 < j → rest.getD j2 0 < rest.getD j 0)) := by
  intro rest
  induction rest with
  | nil => intro k bi bv; left; exact ⟨rfl, fun j hj => by simp at hj⟩
  | cons x t ih =>
    intro k bi bv
    by_cases hx : bv < x
    · right
      have hgo : idxmaxGo (x :: t) k bi bv = idxmaxGo t (k + 1) k x := by
        simp [idxmaxGo, hx]
      rcases ih (k + 1) k x with ⟨hres, hall⟩ | ⟨j, hj, hres, hlt, hmax, hfirst⟩
      · refine ⟨0, by simp, by rw [hgo, hres]; omega, by simpa using hx, ?_, ?_⟩
        · intro j2 hj2
          cases j2 with
          | zero => simp
          | succ m =>
            have hm : m < t.length := by simpa using hj2
            simpa using hall m hm
        · intro j2 hj2; omega
      · refine ⟨j + 1, by simpa using hj, by rw [hgo, hres]; omega, ?_, ?_, ?_⟩
        · have : bv < x := hx
          simpa using lt_trans this hlt
        · intro j2 hj2
          cases j2 with
          | zero => simpa using le_of_lt hlt
          | succ m =>
            have hm : m < t.length := by simpa using hj2
            simpa using hmax m hm
        · intro j2 hj2
          cases j2 with
          | zero => simpa using hlt
          | succ m =>
            have hm : m < j := by omega
            simpa using hfirst m hm
    · have hgo : idxmaxGo (x :: t) k bi bv = idxmaxGo t (k + 1) bi bv := by
        simp [idxmaxGo, hx]
      have hxle : x ≤ bv := le_of_not_lt hx
      rcases ih (k + 1) bi bv with ⟨hres, hall⟩ | ⟨j, hj, hres, hlt, hmax, hfirst⟩
      · left
        refine ⟨by rw [hgo, hres], ?_⟩
        intro j hj
        cases j with
        | zero => simpa using hxle
        | succ m =>
          have hm : m < t.length := by simpa using hj
          simpa using hall m hm
      · right
        refine ⟨j + 1, by simpa using hj, by rw [hgo, hres]; omega, ?_, ?_, ?_⟩
        · simpa using hlt
        · intro j2 hj2
          cases j2 with
          | zero => simpa using le_of_lt (lt_of_le_of_lt hxle hlt)
          | succ m =>
            have hm : m < t.length := by simpa using hj2
            simpa using hmax m hm
        · intro j2 hj2
          cases j2 with
          | zero => simpa using lt_of_le_of_lt hxle hlt
          | succ m =>
            have hm : m < j := by omega
            simpa using hfirst m hm

/-- Shared helper: `idxmaxFirst` returns the index of the maximum value,
first occurrence on ties — the pandas `idxmax` contract that
`group_analyse` relies on. -/
theorem idxmaxFirst_spec (xs : List ℚ) (hne : xs ≠ []) :
    ∃ i, idxmaxFirst xs = some i ∧ i < xs.length ∧
      (∀ j, j < xs.length → xs.getD j 0 ≤ xs.getD i 0) ∧
      (∀ j, j < i → xs.getD j 0 < xs.getD i 0) := by
  cases xs with
  | nil => exact absurd rfl hne
  | cons h t =>
    rcases idxmaxGo_spec t 1 0 h with ⟨hres, hall⟩ | ⟨j, hj, hres, hlt, hmax, hfirst⟩
    · refine ⟨0, by simp [idxmaxFirst, hres], by simp, ?_, ?_⟩
      · intro j hjl
        cases j with
        | zero => simp
        | succ m =>
          have hm : m < t.length := by simpa using hjl
          simpa using hall m hm
      · intro j hj; omega
    · refine ⟨1 + j, by simp [idxmaxFirst, hres], by simp only [List.length_cons]; omega, ?_, ?_⟩
      · intro j2 hj2
        have hidx : (h :: t).getD (1 + j) 0 = t.getD j 0 := by
          have : 1 + j = j + 1 := by omega
          rw [this]; rfl
        rw [hidx]
        cases j2 with
        | zero => simpa using le_of_lt hlt
        | succ m =>
          have hm : m < t.length := by simpa using hj2
          simpa using hmax m hm
      · intro j2 hj2
        have hidx : (h :: t).getD (1 + j) 0 = t.getD j 0 := by
          have : 1 + j = j + 1 := by omega
          rw [this]; rfl
        rw [hidx]
        cases j2 with
        | zero => simpa using hlt
        | succ m =>
          have hm : m < j := by omega
          simpa using hfirst m hm

/-- Claim C6: `group_analyse` selects, among the configured horizons, the
one maximizing the net spread `top/n - bottom/n - 4 * (c_rate / n)` — the
per-period-normalized top-group minus bottom-group return net of four
per-period cost units — returning the first maximal horizon in horizon
order on a tie. -/
theorem c6_group_analyse (table : List (List ℚ)) (periods : List ℕ)
    (cRate : ℚ) (hp : periods ≠ []) :
    ∃ i, i < periods.length ∧
      group_analyse_best table periods cRate = some (periods.getD i 0) ∧
      (∀ j, j < periods.length →
        (netSpreads table periods cRate).getD j 0 ≤
          (netSpreads table periods cRate).getD i 0) ∧
      (∀ j, j < i →
        (netSpreads table periods cRate).getD j 0 <
          (netSpreads table periods cRate).getD i 0) ∧
      (∀ j, j < periods.length →
        (netSpreads table periods cRate).getD j 0 =
          ((table.getLast?).getD []).getD j 0 / (periods.getD j 1 : ℚ) -
            ((table.head?).getD []).getD j 0 / (periods.getD j 1 : ℚ) -
              cRate / (periods.getD j 1 : ℚ) * 4) := by
  have hlen : (netSpreads table periods cRate).length = periods.length := by
    simp [netSpreads, length_range_map]
  have hne : netSpreads table periods cRate ≠ [] := by
    intro h0
    apply hp
    have := hlen
    rw [h0] at this
    exact List.length_eq_zero.mp this.symm
  obtain ⟨i, hres, hi, hmax, hfirst⟩ :=
    idxmaxFirst_spec (netSpreads table periods cRate) hne
  rw [hlen] at hi hmax
  refine ⟨i, hi, ?_, hmax, hfirst, ?_⟩
  · unfold group_analyse_best
    rw [hres]
    rfl
  · intro j hj
    exact getD_range_map _ 0 periods.length j hj

theorem c6_group_analyse_witness :
    ∃ i, i < 2 ∧
      group_analyse_best [[1, 2], [5, 10]] [1, 2] (3 / 10000) =
        some ([1, 2].getD i 0) := by
  obtain ⟨i, hi, heq, _, _, _⟩ :=
    c6_group_analyse [[1, 2], [5, 10]] [1, 2] (3 / 10000) (by decide)
  exact ⟨i, hi, heq⟩

/-! ## Indexing lemmas for the label pipeline -/

theorem rollingCompound_length (n minp : ℕ) (xs : List (Option ℚ)) :
    (rollingCompound n minp xs).length = xs.length :=
  length_range_map _ _

theorem shiftNeg_length (k : ℕ) (xs : List (Option ℚ)) :
    (shiftNeg k xs).length = xs.length :=
  length_range_map _ _

theorem fillNull_length (c : ℚ) (xs : List (Option ℚ)) :
    (fillNull c xs).length = xs.length :=
  List.length_map _ _

theorem rollingCompound_getD (n minp : ℕ) (xs : List (Option ℚ)) (i : ℕ)
    (hi : i < xs.length) :
    (rollingCompound n minp xs).getD i none =
      (if minp ≤ (validVals (windowAt n xs i)).length
       then some (compound (validVals (windowAt n xs i))) else none) :=
  getD_range_map _ none xs.length i hi

theorem shiftNeg_getD (k : ℕ) (xs : List (Option ℚ)) (i : ℕ)
    (hi : i < xs.length) :
    (shiftNeg k xs).getD i none =
      if i + k < xs.length then xs.getD (i + k) none else none :=
  getD_range_map _ none xs.length i hi

theorem fillNull_getD (c : ℚ) (xs : List (Option ℚ)) (i : ℕ)
    (hi : i < xs.length) :
    (fillNull c xs).getD i 0 = (xs.getD i none).getD c := by
  unfold fillNull
  rw [List.getD_eq_getElem?_getD, List.getElem?_map,
    List.getElem?_eq_getElem hi, List.getD_eq_getElem?_getD,
    List.getElem?_eq_getElem hi]
  rfl

/-- The full window of the rolling sum feeding output row `t` after the
backward shift: rows `t .. t+n-1`, i.e. `(xs.drop t).take n`. -/
theorem windowAt_full (n : ℕ) (xs : List (Option ℚ)) (t : ℕ) (hn : 1 ≤ n) :
    windowAt n xs (t + n - 1) = (xs.drop t).take n := by
  unfold windowAt
  have h1 : t + n - 1 + 1 = t + n := by omega
  rw [h1]
  have h2 : t + n - n = t := by omega
  rw [h2, List.drop_take]
  congr 1
  omega

/-- Shared helper: row `t` of the label pipeline
`rolling(n, minp) → shift(-(n-1)) → fill_null(0)`, for any `min_periods`
threshold `minp`: the compounded return over rows `[t, t+n)` when that
full window exists and holds at least `minp` valid observations, and `0`
otherwise. -/
theorem label_stage_getD (n minp : ℕ) (hn : 1 < n) (base : List (Option ℚ))
    (t : ℕ) (ht : t < base.length) :
    (fillNull 0 (shiftNeg (n - 1) (rollingCompound n minp base))).getD t 0 =
      if t + n ≤ base.length then
        (if minp ≤ (validVals ((base.drop t).take n)).length then
          compound (validVals ((base.drop t).take n))
        else 0)
      else 0 := by
  have hRlen : (rollingCompound n minp base).length = base.length :=
    rollingCompound_length n minp base
  have hSlen :
      (shiftNeg (n - 1) (rollingCompound n minp base)).length =
        base.length := by
    rw [shiftNeg_length, hRlen]
  rw [fillNull_getD _ _ t (by rw [hSlen]; exact ht)]
  rw [shiftNeg_getD _ _ t (by rw [hRlen]; exact ht)]
  rw [hRlen]
  by_cases hwin : t + n ≤ base.length
  · have hlt : t + (n - 1) < base.length := by omega
    rw [if_pos hlt]
    rw [rollingCompound_getD n minp base (t + (n - 1)) hlt]
    have heq : t + (n - 1) = t + n - 1 := by omega
    rw [heq, windowAt_full n base t (by omega)]
    rw [if_pos hwin]
    by_cases hmp : minp ≤ (validVals ((base.drop t).take n)).length
    · rw [if_pos hmp, if_pos hmp]
      rfl
    · rw [if_neg hmp, if_neg hmp]
      rfl
  · have hge : ¬ t + (n - 1) < base.length := by omega
    rw [if_neg hge, if_neg hwin]
    rfl

/-- Claim C1 counterexample: for the odd horizon `n = 3` and a base label
column holding nulls, the source's `min_periods = n // 2 = 1` (floor
division, analysis.py line 40) admits a window with a single valid
observation that the spec's `min_periods = ceil(n/2) = 2` would null out,
so the constructed `label_3` column differs from the claimed one. -/
theorem c1_cex :
    labelCol 3 [none, none, some (1/2)] ≠
      labelColSpec 3 [none, none, some (1/2)] := by
  intro h
  have hv : validVals ((([none, none, some (1/2)] :
      List (Option ℚ)).drop 0).take 3) = [1/2] := by
    simp [validVals]
  have hcode : (labelCol 3 [none, none, some (1/2)]).getD 0 0 = 1/2 := by
    have hc := label_stage_getD 3 (3 / 2) (by norm_num)
      [none, none, some (1/2)] 0 (by norm_num)
    rw [hv] at hc
    norm_num [compound] at hc
    exact hc
  have hspec : (labelColSpec 3 [none, none, some (1/2)]).getD 0 0 = 0 := by
    have hs := label_stage_getD 3 ((3 + 1) / 2) (by norm_num)
      [none, none, some (1/2)] 0 (by norm_num)
    rw [hv] at hs
    norm_num at hs
    exact hs
  have hgd : (labelCol 3 [none, none, some (1/2)]).getD 0 0 =
      (labelColSpec 3 [none, none, some (1/2)]).getD 0 0 := by rw [h]
  rw [hcode, hspec] at hgd
  norm_num at hgd

/-- Claim C1 (amended): for every horizon `n > 1`, the constructed
`label_n` at row `t` is the compounded return over the window of rows
`[t, t+n)` when that window exists and holds at least `⌊n/2⌋` (floor,
`n // 2`) valid observations, and `0` otherwise; in particular every row
within `n-1` of the end of the series holds `0`. -/
theorem c1_label_col (n : ℕ) (hn : 1 < n) (base : List (Option ℚ)) :
    (labelCol n base).length = base.length ∧
    (∀ t, t < base.length →
      (labelCol n base).getD t 0 =
        if t + n ≤ base.length then
          (if n / 2 ≤ (validVals ((base.drop t).take n)).length then
            compound (validVals ((base.drop t).take n))
          else 0)
        else 0) ∧
    (∀ t, t < base.length → base.length < t + n →
      (labelCol n base).getD t 0 = 0) := by
  have hmain := fun t ht => label_stage_getD n (n / 2) hn base t ht
  refine ⟨?_, hmain, ?_⟩
  · rw [labelCol, fillNull_length, shiftNeg_length, rollingCompound_length]
  · intro t ht hend
    have h2 := hmain t ht
    rw [if_neg (by omega : ¬ t + n ≤ base.length)] at h2
    exact h2

theorem c1_label_col_witness :
    (labelCol 2 [some 1, some 1]).getD 0 0 = 3 ∧
    (labelCol 2 [some 1, some 1]).getD 1 0 = 0 := by
  have h := c1_label_col 2 (by norm_num) [some 1, some 1]
  have h0 := h.2.1 0 (by norm_num)
  have h1 := h.2.2 1 (by norm_num) (by norm_num)
  have hv : validVals ((([some 1, some 1] :
      List (Option ℚ)).drop 0).take 2) = [1, 1] := by
    simp [validVals]
  rw [hv] at h0
  norm_num [compound] at h0
  exact ⟨h0, h1⟩

/-! ## Lemmas for the quantile bucketing rule -/

theorem map_getD_lt {α β : Type} (f : α → β) (xs : List α) (t : ℕ)
    (ht : t < xs.length) (d : β) (d0 : α) :
    (xs.map f).getD t d = f (xs.getD t d0) := by
  rw [List.getD_eq_getElem?_getD, List.getElem?_map,
    List.getElem?_eq_getElem ht, List.getD_eq_getElem?_getD,
    List.getElem?_eq_getElem ht]
  rfl

theorem foldl_min_le_init (t : List ℚ) : ∀ h : ℚ, t.foldl min h ≤ h := by
  induction t with
  | nil => intro h; exact le_refl h
  | cons x xt ih => intro h; exact le_trans (ih (min h x)) (min_le_left h x)

theorem foldl_min_le_mem (t : List ℚ) :
    ∀ (h v : ℚ), v ∈ t → t.foldl min h ≤ v := by
  induction t with
  | nil => intro h v hv; simp at hv
  | cons x xt ih =>
    intro h v hv
    rcases List.mem_cons.mp hv with rfl | hv2
    · exact le_trans (foldl_min_le_init xt (min h v)) (min_le_right h v)
    · exact ih (min h x) v hv2

theorem init_le_foldl_max (t : List ℚ) : ∀ h : ℚ, h ≤ t.foldl max h := by
  induction t with
  | nil => intro h; exact le_refl h
  | cons x xt ih => intro h; exact le_trans (le_max_left h x) (ih (max h x))

theorem mem_le_foldl_max (t : List ℚ) :
    ∀ (h v : ℚ), v ∈ t → v ≤ t.foldl max h := by
  induction t with
  | nil => intro h v hv; simp at hv
  | cons x xt ih =>
    intro h v hv
    rcases List.mem_cons.mp hv with rfl | hv2
    · exact le_trans (le_max_right h v) (init_le_foldl_max xt (max h v))
    · exact ih (max h x) v hv2

theorem facMinQ_le_mem (xs : List ℚ) (v : ℚ) (hv : v ∈ xs) :
    facMinQ xs ≤ v := by
  cases xs with
  | nil => simp at hv
  | cons h t =>
    unfold facMinQ
    rcases List.mem_cons.mp hv with rfl | hv2
    · exact foldl_min_le_init t v
    · exact foldl_min_le_mem t h v hv2

theorem mem_le_facMaxQ (xs : List ℚ) (v : ℚ) (hv : v ∈ xs) :
    v ≤ facMaxQ xs := by
  cases xs with
  | nil => simp at hv
  | cons h t =>
    unfold facMaxQ
    rcases List.mem_cons.mp hv with rfl | hv2
    · exact init_le_foldl_max t v
    · exact mem_le_foldl_max t h v hv2

theorem tsBins_length (xs : List ℚ) (group : ℕ) :
    (tsBins xs group).length = group + 1 := by
  unfold tsBins linspaceQ
  exact length_range_map _ _

theorem tsBins_getD (xs : List ℚ) (group : ℕ) (i : ℕ) (hi : i < group + 1) :
    (tsBins xs group).getD i 0 =
      (facMinQ xs - tsEps) +
        ((facMaxQ xs + tsEps) - (facMinQ xs - tsEps)) * i / group := by
  unfold tsBins linspaceQ
  rw [getD_range_map _ _ _ i hi]
  push_cast
  ring_nf

theorem tsBins_getD_zero (xs : List ℚ) (group : ℕ) (hg : 0 < group) :
    (tsBins xs group).getD 0 0 = facMinQ xs - tsEps := by
  rw [tsBins_getD xs group 0 (by omega)]
  norm_num

theorem tsBins_getD_last (xs : List ℚ) (group : ℕ) (hg : 0 < group) :
    (tsBins xs group).getD group 0 = facMaxQ xs + tsEps := by
  rw [tsBins_getD xs group group (by omega)]
  have hgq : ((group : ℚ)) ≠ 0 := by
    exact_mod_cast Nat.pos_iff_ne_zero.mp hg
  field_simp

theorem tsBins_mono (xs : List ℚ) (group : ℕ) (hg : 0 < group)
    (hne : xs ≠ []) (i j : ℕ) (hij : i ≤ j) (hj : j < group + 1) :
    (tsBins xs group).getD i 0 ≤ (tsBins xs group).getD j 0 := by
  rw [tsBins_getD xs group i (by omega), tsBins_getD xs group j hj]
  have hmM : facMinQ xs ≤ facMaxQ xs := by
    cases xs with
    | nil => exact absurd rfl hne
    | cons h t =>
      exact le_trans (facMinQ_le_mem (h :: t) h (by simp))
        (mem_le_facMaxQ (h :: t) h (by simp))
  have hba : (0 : ℚ) ≤ (facMaxQ xs + tsEps) - (facMinQ xs - tsEps) := by
    have : (0 : ℚ) < tsEps := by norm_num [tsEps]
    linarith
  have hcast : ((i : ℚ)) ≤ (j : ℚ) := by exact_mod_cast hij
  have hgq : (0 : ℚ) ≤ (group : ℚ) := by positivity
  exact add_le_add_left
    (div_le_div_of_nonneg_right (mul_le_mul_of_nonneg_left hcast hba) hgq) _

theorem tsBins_strict (xs : List ℚ) (group : ℕ) (hg : 0 < group)
    (hne : xs ≠ []) (i : ℕ) (hi : i + 1 < group + 1) :
    (tsBins xs group).getD i 0 < (tsBins xs group).getD (i + 1) 0 := by
  rw [tsBins_getD xs group i (by omega), tsBins_getD xs group (i + 1) hi]
  have hmM : facMinQ xs ≤ facMaxQ xs := by
    cases xs with
    | nil => exact absurd rfl hne
    | cons h t =>
      exact le_trans (facMinQ_le_mem (h :: t) h (by simp))
        (mem_le_facMaxQ (h :: t) h (by simp))
  have hba : (0 : ℚ) < (facMaxQ xs + tsEps) - (facMinQ xs - tsEps) := by
    have : (0 : ℚ) < tsEps := by norm_num [tsEps]
    linarith
  have hcast : ((i : ℚ)) < ((i + 1 : ℕ) : ℚ) := by
    exact_mod_cast Nat.lt_succ_self i
  have hgq : (0 : ℚ) < (group : ℚ) := by exact_mod_cast hg
  exact add_lt_add_left
    (div_lt_div_of_pos_right (mul_lt_mul_of_pos_left hcast hba) hgq) _

/-- Shared helper: on a list of edges whose head is below `v` and whose
last element is at least `v`, the right-closed bin search finds an
interval containing `v`. -/
theorem cutIdx_mem : ∀ (edges : List ℚ) (v : ℚ),
    2 ≤ edges.length →
    edges.getD 0 0 < v → v ≤ edges.getD (edges.length - 1) 0 →
    ∃ i, cutIdx v edges = some i ∧ i + 1 < edges.length ∧
      edges.getD i 0 < v ∧ v ≤ edges.getD (i + 1) 0 := by
  intro edges
  induction edges with
  | nil => intro v h2; simp at h2
  | cons e1 rest ih =>
    intro v h2 h0 hlast
    cases rest with
    | nil => simp at h2
    | cons e2 rest2 =>
      have he1 : e1 < v := by simpa using h0
      by_cases hv : v ≤ e2
      · refine ⟨0, ?_, by simp, by simpa using he1, by simpa using hv⟩
        simp only [cutIdx]
        rw [if_pos ⟨he1, hv⟩]
      · push_neg at hv
        cases rest2 with
        | nil =>
          exfalso
          have hle : v ≤ e2 := by simpa using hlast
          exact absurd hle (not_le.mpr hv)
        | cons e3 rest3 =>
          have hlast2 :
              v ≤ (e2 :: e3 :: rest3).getD ((e2 :: e3 :: rest3).length - 1) 0 := by
            have hidx : (e1 :: e2 :: e3 :: rest3).length - 1 =
                ((e2 :: e3 :: rest3).length - 1) + 1 := by
              simp only [List.length_cons]
              omega
            rw [hidx, List.getD_cons_succ] at hlast
            exact hlast
          obtain ⟨i, hcut, hlen, hl, hr⟩ := ih v (by simp)
            (by simpa using hv) hlast2
          refine ⟨i + 1, ?_, ?_, ?_, ?_⟩
          · have hstep : cutIdx v (e1 :: e2 :: e3 :: rest3) =
                if e1 < v ∧ v ≤ e2 then some 0
                else (cutIdx v (e2 :: e3 :: rest3)).map (· + 1) := rfl
            rw [hstep,
              if_neg (by intro hc; exact absurd hc.2 (not_le.mpr hv)), hcut]
            rfl
          · simp only [List.length_cons] at hlen ⊢
            omega
          · rw [List.getD_cons_succ]
            exact hl
          · rw [List.getD_cons_succ]
            exact hr

theorem groupLabels_length (group : ℕ) :
    (groupLabels group).length = group := by
  unfold groupLabels
  by_cases h20 : group = 20
  · subst h20; norm_num
  · by_cases h10 : group = 10
    · subst h10; norm_num
    · rw [if_neg h20, if_neg h10]
      unfold linspaceQ
      exact length_range_map _ _

/-- Claim C4: the quantile bucketing of `get_ts_group` partitions factor
values into `group` equal-width right-closed bins spanning
`[min - 1e-10, max + 1e-10]`; the bin labels are the fixed 10- and
20-element sets for `group = 10` and `group = 20` and `group` equally
spaced values over [-1, 1] otherwise; and every (non-null) factor value
falls into exactly one bin and receives that bin's label. -/
theorem c4_get_ts_group (xs : List ℚ) (group : ℕ) (hg : 0 < group)
    (hne : xs ≠ []) :
    groupLabels 10 =
      [-1, -(8/10), -(6/10), -(4/10), -(2/10), 2/10, 4/10, 6/10, 8/10, 1] ∧
    groupLabels 20 =
      [-1, -(9/10), -(8/10), -(7/10), -(6/10), -(5/10), -(4/10), -(3/10),
       -(2/10), -(1/10), 1/10, 2/10, 3/10, 4/10, 5/10, 6/10, 7/10, 8/10,
       9/10, 1] ∧
    (group ≠ 10 → group ≠ 20 → groupLabels group = linspaceQ (-1) 1 group) ∧
    (groupLabels group).length = group ∧
    (∀ v, v ∈ xs → ∃ i, i < group ∧
      cutIdx v (tsBins xs group) = some i ∧
      (tsBins xs group).getD i 0 < v ∧
      v ≤ (tsBins xs group).getD (i + 1) 0 ∧
      qtCut v (tsBins xs group) (groupLabels group) =
        some ((groupLabels group).getD i 0) ∧
      (groupLabels group).getD i 0 ∈ groupLabels group ∧
      (∀ j, j + 1 < group + 1 →
        (tsBins xs group).getD j 0 < v →
        v ≤ (tsBins xs group).getD (j + 1) 0 → j = i)) ∧
    (∀ t, t < xs.length → (get_ts_group xs group).getD t none =
      qtCut (xs.getD t 0) (tsBins xs group) (groupLabels group)) := by
  refine ⟨rfl, rfl, ?_, groupLabels_length group, ?_, ?_⟩
  · intro h10 h20
    unfold groupLabels
    rw [if_neg h20, if_neg h10]
  · intro v hv
    have hminv := facMinQ_le_mem xs v hv
    have hvmax := mem_le_facMaxQ xs v hv
    have heps : (0 : ℚ) < tsEps := by norm_num [tsEps]
    have h0v : (tsBins xs group).getD 0 0 < v := by
      rw [tsBins_getD_zero xs group hg]
      linarith
    have hvlast : v ≤ (tsBins xs group).getD ((tsBins xs group).length - 1) 0 := by
      have hidx : (tsBins xs group).length - 1 = group := by
        rw [tsBins_length]
        omega
      rw [hidx, tsBins_getD_last xs group hg]
      linarith
    obtain ⟨i, hcut, hilen, hl, hr⟩ :=
      cutIdx_mem (tsBins xs group) v (by rw [tsBins_length]; omega) h0v hvlast
    rw [tsBins_length] at hilen
    have hig : i < group := by omega
    have higl : i < (groupLabels group).length := by
      rw [groupLabels_length]; exact hig
    have hget : (groupLabels group).get? i =
        some ((groupLabels group).getD i 0) := by
      rw [List.get?_eq_getElem?, List.getElem?_eq_getElem higl,
        List.getD_eq_getElem?_getD, List.getElem?_eq_getElem higl]
      rfl
    refine ⟨i, hig, hcut, hl, hr, ?_, ?_, ?_⟩
    · unfold qtCut
      rw [hcut]
      simpa using hget
    · have : (groupLabels group).getD i 0 = (groupLabels group).get ⟨i, higl⟩ := by
        rw [List.getD_eq_getElem?_getD, List.getElem?_eq_getElem higl]
        rfl
      rw [this]
      exact List.get_mem _ _ _
    · intro j hj hjl hjr
      rcases lt_trichotomy j i with hlt | heq | hgt
      · exfalso
        have hmono := tsBins_mono xs group hg hne (j + 1) i (by omega) (by omega)
        have : v ≤ (tsBins xs group).getD i 0 := le_trans hjr hmono
        linarith
      · exact heq
      · exfalso
        have hmono := tsBins_mono xs group hg hne (i + 1) j (by omega) (by omega)
        have : v ≤ (tsBins xs group).getD j 0 := le_trans hr hmono
        linarith
  · intro t ht
    unfold get_ts_group
    exact map_getD_lt _ xs t ht none 0

theorem c4_get_ts_group_witness :
    ∃ i, i < 10 ∧ cutIdx 0 (tsBins [0, 1] 10) = some i ∧
      qtCut 0 (tsBins [0, 1] 10) (groupLabels 10) =
        some ((groupLabels 10).getD i 0) := by
  obtain ⟨i, hi, hcut, _, _, hqt, _, _⟩ :=
    (c4_get_ts_group [0, 1] 10 (by norm_num) (by simp)).2.2.2.2.1 0 (by simp)
  exact ⟨i, hi, hcut, hqt⟩

end TeaDataLoader
